import Mathlib

/-!
Verification development for the radiograph viewer's core image pipeline
(`src/js/image-processor.js` and the histogram / transfer-curve and
parameter-state parts of `src/js/viewer.js`).

Pixels are RGBA quadruples of natural-number bytes; an `ImageData` buffer
is a width, a height and a flat row-major list of pixels.  All per-channel
arithmetic in the source is JavaScript number arithmetic; we embed it over
`ℚ`.  The one transcendental the source uses, `Math.exp`, is abstracted as
an explicit function parameter `e : ℚ → ℚ`; theorems that need facts about
the exponential (monotonicity, positivity) take them as hypotheses, which
the real exponential satisfies.

Stores into a `Uint8ClampedArray` follow the ECMAScript `ToUint8Clamp`
semantics: clamp to [0, 255], then round to the nearest integer with ties
to even.
-/

namespace RadiographViewer

/-- One RGBA pixel: four byte channels. -/
structure Px where
  r : ℕ
  g : ℕ
  b : ℕ
  a : ℕ
  deriving Repr, DecidableEq

/-- A canvas `ImageData` buffer: dimensions plus a row-major pixel list. -/
structure ImgData where
  width : ℕ
  height : ℕ
  data : List Px
  deriving Repr, DecidableEq

/-- Well-formed buffer data: every channel byte fits in 8 bits. -/
def wfData (data : List Px) : Prop :=
  ∀ p ∈ data, p.r ≤ 255 ∧ p.g ≤ 255 ∧ p.b ≤ 255 ∧ p.a ≤ 255

instance (data : List Px) : Decidable (wfData data) := by
  unfold wfData; infer_instance

/-- Pixel lookup, defaulting out-of-range reads (row-major index). -/
def px (data : List Px) (i : ℕ) : Px :=
  data.getD i ⟨0, 0, 0, 0⟩

/-- Channel selector matching the source's `channel = 0, 1, 2` loop. -/
def chan (p : Px) (c : ℕ) : ℕ :=
  if c = 0 then p.r else if c = 1 then p.g else p.b

/-- Clamp a rational to the byte range [0, 255]
    (the source's `Math.max(0, Math.min(255, value))`). -/
def clamp255 (q : ℚ) : ℚ :=
  max 0 (min 255 q)

/-- Round to the nearest integer, ties to even (ECMAScript `ToUint8Clamp`
    rounding applied after clamping). -/
def roundTiesEven (q : ℚ) : ℤ :=
  let f := ⌊q⌋
  if q - f < 1 / 2 then f
  else if 1 / 2 < q - f then f + 1
  else if f % 2 = 0 then f else f + 1

/-- Store a computed rational into a `Uint8ClampedArray` slot: clamp to
    [0, 255] then round with ties to even. -/
def storeByte (q : ℚ) : ℕ :=
  (roundTiesEven (clamp255 q)).toNat

/-- Luminance of a pixel, `0.299*R + 0.587*G + 0.114*B`. -/
def lumQ (p : Px) : ℚ :=
  (299 / 1000) * p.r + (587 / 1000) * p.g + (114 / 1000) * p.b

/-- `ImageProcessor.process` parameters. -/
structure Params where
  brightness : ℚ
  contrast : ℚ
  edgeEnhancement : ℚ
  invert : Bool
  deriving Repr, DecidableEq

namespace ImageProcessor

/-- Extreme-contrast branch (`contrast > 50`) of
    `applyBrightnessContrast`, per pixel: collapse to luminance, add
    brightness, then hard-threshold (`contrast >= 95`) or sigmoid;
    the result is written to all three RGB channels. -/
def bcPixelExtreme (e : ℚ → ℚ) (brightness contrast : ℚ) (p : Px) : Px :=
  let threshold : ℚ := 128 - (contrast - 50) * (236 / 100)
  let smoothing : ℚ := max 1 (100 - contrast)
  let lum := lumQ p
  let adjustedLum := lum + brightness
  let value : ℚ :=
    if 95 ≤ contrast then
      if threshold < adjustedLum then 255 else 0
    else
      let k := smoothing / 10
      let x := (adjustedLum - threshold) / k
      255 / (1 + e (-x))
  { r := storeByte value, g := storeByte value, b := storeByte value, a := p.a }

/-- Normal-contrast branch (`contrast ≤ 50`) of `applyBrightnessContrast`,
    per channel: scale the distance from mid gray, add brightness, clamp. -/
def bcChannel (brightness contrast : ℚ) (v : ℕ) : ℕ :=
  let contrastFactor : ℚ :=
    if contrast ≤ 0 then (contrast + 100) / 100 else 1 + (contrast / 50) * 3
  let value : ℚ := ((v : ℚ) - 128) * contrastFactor + 128
  let value := value + brightness
  storeByte (max 0 (min 255 value))

/-- Normal-contrast branch applied to one pixel (alpha untouched). -/
def bcPixelNormal (brightness contrast : ℚ) (p : Px) : Px :=
  { r := bcChannel brightness contrast p.r
    g := bcChannel brightness contrast p.g
    b := bcChannel brightness contrast p.b
    a := p.a }

/-- `ImageProcessor.applyBrightnessContrast`: extreme algorithm when
    `contrast > 50`, else the per-channel normal algorithm. -/
def applyBrightnessContrast (e : ℚ → ℚ) (brightness contrast : ℚ)
    (data : List Px) : List Px :=
  if 50 < contrast then data.map (bcPixelExtreme e brightness contrast)
  else data.map (bcPixelNormal brightness contrast)

/-- `ImageProcessor.applyInversion` per pixel: `255 - v` on R, G, B,
    alpha unchanged. -/
def invPixel (p : Px) : Px :=
  { r := 255 - p.r, g := 255 - p.g, b := 255 - p.b, a := p.a }

/-- `ImageProcessor.applyInversion` over a buffer. -/
def applyInversion (data : List Px) : List Px :=
  data.map invPixel

/-- The 3×3 Laplacian convolution sum at interior pixel `(x, y)`,
    channel `c`, with the source's kernel `[0,-1,0,-1,4,-1,0,-1,0]`
    (taps listed in the source's `ky`/`kx` loop order). -/
def convSum (data : List Px) (w : ℕ) (x y : ℕ) (c : ℕ) : ℤ :=
  0 * (chan (px data ((y - 1) * w + (x - 1))) c : ℤ)
    + (-1) * (chan (px data ((y - 1) * w + x)) c : ℤ)
    + 0 * (chan (px data ((y - 1) * w + (x + 1))) c : ℤ)
    + (-1) * (chan (px data (y * w + (x - 1))) c : ℤ)
    + 4 * (chan (px data (y * w + x)) c : ℤ)
    + (-1) * (chan (px data (y * w + (x + 1))) c : ℤ)
    + 0 * (chan (px data ((y + 1) * w + (x - 1))) c : ℤ)
    + (-1) * (chan (px data ((y + 1) * w + x)) c : ℤ)
    + 0 * (chan (px data ((y + 1) * w + (x + 1))) c : ℤ)

/-- One enhanced channel value: original plus `convSum * intensity`,
    clamped and stored. -/
def edgeChannel (data : List Px) (w : ℕ) (x y : ℕ) (c : ℕ)
    (intensity : ℚ) : ℕ :=
  let enhanced : ℚ := (chan (px data (y * w + x)) c : ℚ)
    + (convSum data w x y c : ℚ) * intensity
  storeByte (max 0 (min 255 enhanced))

/-- `ImageProcessor.applyEdgeEnhancement`: copy the buffer, then
    overwrite the RGB channels of every interior pixel
    (`1 ≤ x < w-1`, `1 ≤ y < h-1`) with the Laplacian-enhanced values,
    reading every tap from the unmodified source buffer. -/
def applyEdgeEnhancement (img : ImgData) (strength : ℚ) : ImgData :=
  let w := img.width
  let h := img.height
  let src := img.data
  let intensity : ℚ := strength * (1 / 10)
  let data' := (List.range src.length).map fun i =>
    let x := i % w
    let y := i / w
    if 1 ≤ x ∧ x < w - 1 ∧ 1 ≤ y ∧ y < h - 1 then
      { r := edgeChannel src w x y 0 intensity
        g := edgeChannel src w x y 1 intensity
        b := edgeChannel src w x y 2 intensity
        a := (px src i).a }
    else px src i
  { width := w, height := h, data := data' }

/-- `ImageProcessor.process`: clone, then brightness/contrast (unless both
    are zero), then inversion (if requested), then edge enhancement last
    (if strength is positive). -/
def process (e : ℚ → ℚ) (img : ImgData) (p : Params) : ImgData :=
  let data := img.data
  let data := if p.brightness ≠ 0 ∨ p.contrast ≠ 0 then
      applyBrightnessContrast e p.brightness p.contrast data
    else data
  let data := if p.invert then applyInversion data else data
  let processed : ImgData := { width := img.width, height := img.height, data := data }
  if 0 < p.edgeEnhancement then applyEdgeEnhancement processed p.edgeEnhancement
  else processed

/-- Luminance histogram bucket index:
    `Math.round(0.299*R + 0.587*G + 0.114*B)` (JavaScript `Math.round`
    is `⌊x + 1/2⌋`, which Mathlib's `round` matches on `ℚ`). -/
def lumIndex (p : Px) : ℕ :=
  (round (lumQ p)).toNat

/-- Histogram of a buffer: four 256-bucket count tables. -/
structure Histogram where
  red : Fin 256 → ℕ
  green : Fin 256 → ℕ
  blue : Fin 256 → ℕ
  luminance : Fin 256 → ℕ

/-- Increment the count at byte index `i` (the source's `hist[v]++`). -/
def bump (f : Fin 256 → ℕ) (i : ℕ) : Fin 256 → ℕ :=
  fun j => if (j : ℕ) = i then f j + 1 else f j

/-- The loop body of `calculateHistogram`: count one pixel's channel
    bytes and its rounded luminance. -/
def histStep (h : Histogram) (p : Px) : Histogram :=
  { red := bump h.red p.r
    green := bump h.green p.g
    blue := bump h.blue p.b
    luminance := bump h.luminance (lumIndex p) }

/-- `ImageProcessor.calculateHistogram`: one pass over the pixels,
    counting each channel byte and the rounded luminance. -/
def calculateHistogram (data : List Px) : Histogram :=
  data.foldl histStep ⟨fun _ => 0, fun _ => 0, fun _ => 0, fun _ => 0⟩

end ImageProcessor

/-- The adjustment state held by `RadiographViewer`. -/
structure ViewerState where
  brightness : ℚ
  contrast : ℚ
  edgeEnhancement : ℚ
  isInverted : Bool
  deriving Repr, DecidableEq

/-- `RadiographViewer.setBrightness`: clamp to [-100, 100] and store. -/
def setBrightness (s : ViewerState) (v : ℚ) : ViewerState :=
  { s with brightness := max (-100) (min 100 v) }

/-- `RadiographViewer.setContrast`: clamp to [-100, 100] and store. -/
def setContrast (s : ViewerState) (v : ℚ) : ViewerState :=
  { s with contrast := max (-100) (min 100 v) }

/-- `RadiographViewer.setEdgeEnhancement`: clamp to [0, 10] and store. -/
def setEdgeEnhancement (s : ViewerState) (v : ℚ) : ViewerState :=
  { s with edgeEnhancement := max 0 (min 10 v) }

/-- `RadiographViewer.resetAdjustments`: restore all defaults. -/
def resetAdjustments (_s : ViewerState) : ViewerState :=
  { brightness := 0, contrast := 0, edgeEnhancement := 0, isInverted := false }

/-- The raw (pre-clamp) transfer-curve value computed in the loop body of
    `RadiographViewer.drawHistogram`: the brightness/contrast formulas,
    in the same two contrast regimes as the processor, applied to the
    input gray level. -/
def curveRaw (e : ℚ → ℚ) (brightness contrast : ℚ) (input : ℕ) : ℚ :=
  if 50 < contrast then
    let threshold : ℚ := 128 - (contrast - 50) * (236 / 100)
    let smoothing : ℚ := max 1 (100 - contrast)
    let adjustedValue : ℚ := (input : ℚ) + brightness
    if 95 ≤ contrast then
      if threshold < adjustedValue then 255 else 0
    else
      let k := smoothing / 10
      let sigmoidInput := (adjustedValue - threshold) / k
      255 / (1 + e (-sigmoidInput))
  else
    let contrastFactor : ℚ :=
      if contrast ≤ 0 then (contrast + 100) / 100 else 1 + (contrast / 50) * 3
    ((input : ℚ) - 128) * contrastFactor + 128 + brightness

/-- The transfer-curve sample computed by `RadiographViewer.drawHistogram`
    for a given input gray level: the raw two-regime value, clamped to
    [0, 255], then inverted if requested. -/
def curveOutput (e : ℚ → ℚ) (brightness contrast : ℚ) (isInverted : Bool)
    (input : ℕ) : ℚ :=
  let clamped := clamp255 (curveRaw e brightness contrast input)
  if isInverted then 255 - clamped else clamped

/-! ### Basic lemmas about the byte store and pixel lookup -/

theorem roundTiesEven_nonneg {q : ℚ} (h : 0 ≤ q) : 0 ≤ roundTiesEven q := by
  have hf : (0 : ℤ) ≤ ⌊q⌋ := Int.floor_nonneg.2 h
  unfold roundTiesEven
  dsimp only
  split
  · exact hf
  · split
    · omega
    · split <;> omega

theorem roundTiesEven_le {q : ℚ} (h : q ≤ 255) : roundTiesEven q ≤ 255 := by
  have hf : ⌊q⌋ ≤ 255 := by
    have : ⌊q⌋ ≤ ⌊(255 : ℚ)⌋ := Int.floor_le_floor h
    simpa using this
  have hfl : (⌊q⌋ : ℚ) ≤ q := Int.floor_le q
  unfold roundTiesEven
  dsimp only
  split
  · exact hf
  · have hle : (1 : ℚ) / 2 ≤ q - ⌊q⌋ := by linarith [le_of_not_lt (by assumption)]
    have hlt : (⌊q⌋ : ℚ) < 255 := by linarith
    have hfl' : ⌊q⌋ < 255 := by exact_mod_cast hlt
    split
    · omega
    · split <;> omega

theorem abs_roundTiesEven_sub (q : ℚ) :
    |(roundTiesEven q : ℚ) - q| ≤ 1 / 2 := by
  have h0 : (⌊q⌋ : ℚ) ≤ q := Int.floor_le q
  have h1 : q < ⌊q⌋ + 1 := Int.lt_floor_add_one q
  unfold roundTiesEven
  dsimp only
  split
  · rw [abs_le]; constructor <;> [linarith; linarith]
  · have hle : (1 : ℚ) / 2 ≤ q - ⌊q⌋ := le_of_not_lt (by assumption)
    split
    · push_cast
      rw [abs_le]; constructor <;> [linarith; linarith]
    · have heq : q - ⌊q⌋ = 1 / 2 :=
        le_antisymm (le_of_not_lt (by assumption)) hle
      split
      · rw [abs_le]; constructor <;> [linarith; linarith]
      · push_cast
        rw [abs_le]; constructor <;> [linarith; linarith]

theorem clamp255_nonneg (q : ℚ) : 0 ≤ clamp255 q := le_max_left 0 _

theorem clamp255_le (q : ℚ) : clamp255 q ≤ 255 := by
  unfold clamp255
  rcases le_or_lt q 255 with h | h
  · exact max_le (by norm_num) (le_trans (min_le_right 255 q) h)
  · exact max_le (by norm_num) (min_le_left 255 q)

theorem clamp255_mono {a b : ℚ} (h : a ≤ b) : clamp255 a ≤ clamp255 b :=
  max_le_max le_rfl (min_le_min le_rfl h)

theorem storeByte_le (q : ℚ) : storeByte q ≤ 255 := by
  unfold storeByte
  have := roundTiesEven_le (clamp255_le q)
  omega

theorem storeByte_cast (q : ℚ) :
    ((storeByte q : ℕ) : ℚ) = (roundTiesEven (clamp255 q) : ℚ) := by
  unfold storeByte
  have h := roundTiesEven_nonneg (clamp255_nonneg q)
  have := Int.toNat_of_nonneg h
  exact_mod_cast congrArg (fun z : ℤ => (z : ℚ)) this

theorem storeByte_close (q : ℚ) :
    |((storeByte q : ℕ) : ℚ) - clamp255 q| ≤ 1 / 2 := by
  rw [storeByte_cast]
  exact abs_roundTiesEven_sub (clamp255 q)

theorem storeByte_clamp (q : ℚ) : storeByte (clamp255 q) = storeByte q := by
  unfold storeByte
  congr 1
  unfold clamp255
  rcases le_or_lt q 0 with h | h
  · rw [min_eq_right (by linarith : q ≤ 255), max_eq_left (by linarith : q ≤ 0)]
    norm_num
  · rcases le_or_lt q 255 with h2 | h2
    · rw [min_eq_right h2, max_eq_right h.le, min_eq_right h2, max_eq_right h.le]
    · rw [min_eq_left h2.le, max_eq_right (by norm_num : (0:ℚ) ≤ 255)]
      norm_num

theorem px_map_lt (f : Px → Px) (l : List Px) (i : ℕ) (h : i < l.length) :
    px (l.map f) i = f (px l i) := by
  unfold px
  rw [List.getD_eq_getElem _ _ (by simpa using h), List.getD_eq_getElem _ _ h]
  simp

theorem px_map_ge (f : Px → Px) (l : List Px) (i : ℕ) (h : l.length ≤ i) :
    px (l.map f) i = ⟨0, 0, 0, 0⟩ := by
  unfold px
  rw [List.getD_eq_default _ _ (by simpa using h)]

theorem px_ge (l : List Px) (i : ℕ) (h : l.length ≤ i) :
    px l i = ⟨0, 0, 0, 0⟩ := by
  unfold px
  rw [List.getD_eq_default _ _ h]

theorem px_mem (l : List Px) (i : ℕ) (h : i < l.length) : px l i ∈ l := by
  unfold px
  rw [List.getD_eq_getElem _ _ h]
  exact List.getElem_mem h

/-- Reading every position of a list back with `px` reproduces the list. -/
theorem range_map_px (l : List Px) :
    (List.range l.length).map (fun i => px l i) = l := by
  apply List.ext_getElem
  · simp
  · intro i h1 h2
    simp only [List.getElem_map, List.getElem_range]
    unfold px
    rw [List.getD_eq_getElem _ _ h2]

theorem invPixel_invPixel (p : Px) (hr : p.r ≤ 255) (hg : p.g ≤ 255)
    (hb : p.b ≤ 255) : ImageProcessor.invPixel (ImageProcessor.invPixel p) = p := by
  obtain ⟨r, g, b, a⟩ := p
  dsimp at hr hg hb
  simp only [ImageProcessor.invPixel, Px.mk.injEq, and_true]
  exact ⟨by omega, by omega, by omega⟩

/-- C7: `process` with all-default parameters (brightness 0, contrast 0,
    edge enhancement 0, no inversion) returns a buffer equal to its input:
    every stage is skipped and the clone is returned unchanged. -/
theorem process_identity_at_defaults (e : ℚ → ℚ) (img : ImgData) :
    ImageProcessor.process e img ⟨0, 0, 0, false⟩ = img := rfl

/-- C8: the inversion stage maps each pixel's R, G, B to 255 minus their
    value with alpha unchanged, and applying it twice restores any
    well-formed buffer (inversion is an involution). -/
theorem applyInversion_involution (data : List Px) (h : wfData data) :
    ImageProcessor.applyInversion data =
      data.map (fun p => { r := 255 - p.r, g := 255 - p.g, b := 255 - p.b, a := p.a }) ∧
    ImageProcessor.applyInversion (ImageProcessor.applyInversion data) = data := by
  constructor
  · rfl
  · unfold ImageProcessor.applyInversion
    rw [List.map_map]
    have hcongr : ∀ p ∈ data,
        (ImageProcessor.invPixel ∘ ImageProcessor.invPixel) p = id p := by
      intro p hp
      obtain ⟨hr, hg, hb, _⟩ := h p hp
      simpa using invPixel_invPixel p hr hg hb
    rw [List.map_congr_left hcongr, List.map_id]

/-- Witness for C8 at a concrete well-formed buffer. -/
theorem applyInversion_involution_witness :
    ImageProcessor.applyInversion
        (ImageProcessor.applyInversion [⟨10, 20, 30, 40⟩, ⟨0, 255, 128, 1⟩]) =
      [⟨10, 20, 30, 40⟩, ⟨0, 255, 128, 1⟩] :=
  (applyInversion_involution [⟨10, 20, 30, 40⟩, ⟨0, 255, 128, 1⟩] (by decide)).2

/-- C9: each setter stores exactly its argument clamped to the parameter's
    domain (so the stored value is always in-domain), and
    `resetAdjustments` restores the default parameters. -/
theorem setters_clamp_and_reset (s : ViewerState) (v : ℚ) :
    (setBrightness s v).brightness = max (-100) (min 100 v) ∧
    -100 ≤ (setBrightness s v).brightness ∧ (setBrightness s v).brightness ≤ 100 ∧
    (setContrast s v).contrast = max (-100) (min 100 v) ∧
    -100 ≤ (setContrast s v).contrast ∧ (setContrast s v).contrast ≤ 100 ∧
    (setEdgeEnhancement s v).edgeEnhancement = max 0 (min 10 v) ∧
    0 ≤ (setEdgeEnhancement s v).edgeEnhancement ∧
    (setEdgeEnhancement s v).edgeEnhancement ≤ 10 ∧
    resetAdjustments s = ⟨0, 0, 0, false⟩ := by
  refine ⟨rfl, le_max_left _ _, max_le (by norm_num) (min_le_left _ _),
    rfl, le_max_left _ _, max_le (by norm_num) (min_le_left _ _),
    rfl, le_max_left _ _, max_le (by norm_num) (min_le_left _ _), rfl⟩

/-! ### Stage decomposition and frame effects of `process` -/

namespace ImageProcessor

/-- The brightness/contrast stage of the pipeline as a standalone step:
    it runs exactly when `brightness ≠ 0 ∨ contrast ≠ 0`. -/
def bcStage (e : ℚ → ℚ) (brightness contrast : ℚ) (img : ImgData) : ImgData :=
  if brightness ≠ 0 ∨ contrast ≠ 0 then
    { img with data := applyBrightnessContrast e brightness contrast img.data }
  else img

/-- The inversion stage as a standalone step: it runs exactly when
    `invert` is true. -/
def invStage (invert : Bool) (img : ImgData) : ImgData :=
  if invert then { img with data := applyInversion img.data } else img

/-- The edge-enhancement stage as a standalone step: it runs exactly when
    the strength is positive. -/
def edgeStage (strength : ℚ) (img : ImgData) : ImgData :=
  if 0 < strength then applyEdgeEnhancement img strength else img

end ImageProcessor

/-- C3: `process` is exactly the brightness/contrast stage (run iff
    `brightness ≠ 0 ∨ contrast ≠ 0`), then the inversion stage (run iff
    `invert`), then the edge-enhancement stage (run iff
    `edgeEnhancement > 0`) applied strictly last, so edge enhancement
    reads the already brightness/contrast-adjusted and inverted pixels. -/
theorem process_stage_order (e : ℚ → ℚ) (img : ImgData) (p : Params) :
    ImageProcessor.process e img p =
      ImageProcessor.edgeStage p.edgeEnhancement
        (ImageProcessor.invStage p.invert
          (ImageProcessor.bcStage e p.brightness p.contrast img)) := by
  dsimp only [ImageProcessor.process, ImageProcessor.bcStage,
    ImageProcessor.invStage, ImageProcessor.edgeStage]
  split_ifs <;> rfl

theorem alpha_px_map (f : Px → Px) (hf : ∀ p, (f p).a = p.a) (l : List Px)
    (i : ℕ) : (px (l.map f) i).a = (px l i).a := by
  rcases lt_or_ge i l.length with h | h
  · rw [px_map_lt f l i h, hf]
  · rw [px_map_ge f l i h, px_ge l i h]

theorem length_applyBrightnessContrast (e : ℚ → ℚ) (b c : ℚ) (d : List Px) :
    (ImageProcessor.applyBrightnessContrast e b c d).length = d.length := by
  unfold ImageProcessor.applyBrightnessContrast
  split <;> simp

theorem alpha_applyBrightnessContrast (e : ℚ → ℚ) (b c : ℚ) (d : List Px)
    (i : ℕ) : (px (ImageProcessor.applyBrightnessContrast e b c d) i).a = (px d i).a := by
  unfold ImageProcessor.applyBrightnessContrast
  split
  · exact alpha_px_map (ImageProcessor.bcPixelExtreme e b c) (fun _ => rfl) d i
  · exact alpha_px_map (ImageProcessor.bcPixelNormal b c) (fun _ => rfl) d i

theorem length_applyInversion (d : List Px) :
    (ImageProcessor.applyInversion d).length = d.length := by
  simp [ImageProcessor.applyInversion]

theorem alpha_applyInversion (d : List Px) (i : ℕ) :
    (px (ImageProcessor.applyInversion d) i).a = (px d i).a :=
  alpha_px_map ImageProcessor.invPixel (fun _ => rfl) d i

theorem px_range_map (g : ℕ → Px) (n i : ℕ) (h : i < n) :
    px ((List.range n).map g) i = g i := by
  unfold px
  rw [List.getD_eq_getElem _ _ (by simpa using h)]
  simp

theorem px_range_map_ge (g : ℕ → Px) (n i : ℕ) (h : n ≤ i) :
    px ((List.range n).map g) i = ⟨0, 0, 0, 0⟩ := by
  unfold px
  rw [List.getD_eq_default _ _ (by simpa using h)]

theorem applyEdgeEnhancement_dims (img : ImgData) (s : ℚ) :
    (ImageProcessor.applyEdgeEnhancement img s).width = img.width ∧
    (ImageProcessor.applyEdgeEnhancement img s).height = img.height ∧
    (ImageProcessor.applyEdgeEnhancement img s).data.length = img.data.length := by
  refine ⟨rfl, rfl, ?_⟩
  simp [ImageProcessor.applyEdgeEnhancement]

theorem alpha_applyEdgeEnhancement (img : ImgData) (s : ℚ) (i : ℕ) :
    (px (ImageProcessor.applyEdgeEnhancement img s).data i).a = (px img.data i).a := by
  unfold ImageProcessor.applyEdgeEnhancement
  dsimp only
  rcases lt_or_ge i img.data.length with h | h
  · rw [px_range_map _ _ _ h]
    split <;> rfl
  · rw [px_range_map_ge _ _ _ h, px_ge _ _ h]

/-- C4: `process` preserves the buffer's width, height and pixel count,
    and every pixel of the result carries the alpha byte of the
    corresponding source pixel (no transform touches alpha).  The source
    buffer itself is a value the pure function never updates: `process`
    starts from a clone. -/
theorem process_frame (e : ℚ → ℚ) (img : ImgData) (p : Params) :
    (ImageProcessor.process e img p).width = img.width ∧
    (ImageProcessor.process e img p).height = img.height ∧
    (ImageProcessor.process e img p).data.length = img.data.length ∧
    ∀ i : ℕ, (px (ImageProcessor.process e img p).data i).a = (px img.data i).a := by
  unfold ImageProcessor.process
  dsimp only
  split
  · refine ⟨rfl, rfl, ?_, ?_⟩
    · rw [(applyEdgeEnhancement_dims _ _).2.2]
      dsimp only
      split
      · split
        · rw [length_applyInversion, length_applyBrightnessContrast]
        · rw [length_applyInversion]
      · split
        · rw [length_applyBrightnessContrast]
        · rfl
    · intro i
      rw [alpha_applyEdgeEnhancement]
      dsimp only
      split
      · split
        · rw [alpha_applyInversion, alpha_applyBrightnessContrast]
        · rw [alpha_applyInversion]
      · split
        · rw [alpha_applyBrightnessContrast]
        · rfl
  · refine ⟨rfl, rfl, ?_, ?_⟩
    · dsimp only
      split
      · split
        · rw [length_applyInversion, length_applyBrightnessContrast]
        · rw [length_applyInversion]
      · split
        · rw [length_applyBrightnessContrast]
        · rfl
    · intro i
      dsimp only
      split
      · split
        · rw [alpha_applyInversion, alpha_applyBrightnessContrast]
        · rw [alpha_applyInversion]
      · split
        · rw [alpha_applyBrightnessContrast]
        · rfl

/-! ### The brightness/contrast formula as the specification states it -/

/-- The specification's per-pixel brightness/contrast formula, written
    from the spec's words: for `contrast ≤ 50`, per RGB channel
    independently, `clamp((input - 128) * factor + 128 + brightness)`
    with `factor = (contrast+100)/100` for `contrast ≤ 0` and
    `1 + (contrast/50)*3` otherwise; for `contrast > 50`, luminance
    `0.299*R + 0.587*G + 0.114*B`, `adjusted = luminance + brightness`,
    `threshold = 128 - (contrast-50)*2.36`, and all three RGB channels
    receive `adjusted > threshold ? 255 : 0` when `contrast ≥ 95`, else
    `255 / (1 + exp(-(adjusted - threshold) / (max(1, 100-contrast)/10)))`. -/
def bcSpecPixel (e : ℚ → ℚ) (brightness contrast : ℚ) (p : Px) : Px :=
  if contrast ≤ 50 then
    let factor : ℚ :=
      if contrast ≤ 0 then (contrast + 100) / 100 else 1 + (contrast / 50) * 3
    let out : ℕ → ℕ := fun v =>
      storeByte (clamp255 (((v : ℚ) - 128) * factor + 128 + brightness))
    { r := out p.r, g := out p.g, b := out p.b, a := p.a }
  else
    let luminance : ℚ := (299 / 1000) * p.r + (587 / 1000) * p.g + (114 / 1000) * p.b
    let adjusted := luminance + brightness
    let threshold : ℚ := 128 - (contrast - 50) * (236 / 100)
    let value : ℚ :=
      if 95 ≤ contrast then (if threshold < adjusted then 255 else 0)
      else 255 / (1 + e (-((adjusted - threshold) / (max 1 (100 - contrast) / 10))))
    { r := storeByte value, g := storeByte value, b := storeByte value, a := p.a }

/-- C2: `applyBrightnessContrast` computes, pixelwise, exactly the
    specification's two-regime formula (`contrast ≤ 50`, including 50
    itself, uses the per-channel normal regime; `contrast > 50` uses the
    luminance threshold/sigmoid regime). -/
theorem applyBrightnessContrast_spec (e : ℚ → ℚ) (brightness contrast : ℚ)
    (data : List Px)
    (_hb : -100 ≤ brightness ∧ brightness ≤ 100)
    (_hc : -100 ≤ contrast ∧ contrast ≤ 100) :
    ImageProcessor.applyBrightnessContrast e brightness contrast data =
      data.map (bcSpecPixel e brightness contrast) := by
  unfold ImageProcessor.applyBrightnessContrast
  rcases lt_or_ge 50 contrast with h | h
  · rw [if_pos h]
    refine List.map_congr_left fun p _ => ?_
    unfold ImageProcessor.bcPixelExtreme bcSpecPixel lumQ
    rw [if_neg (not_le.2 h)]
  · rw [if_neg (not_lt.2 h)]
    refine List.map_congr_left fun p _ => ?_
    unfold ImageProcessor.bcPixelNormal bcSpecPixel ImageProcessor.bcChannel clamp255
    rw [if_pos h]

/-- Witness for C2 at concrete in-range parameters and a concrete buffer. -/
theorem applyBrightnessContrast_spec_witness :
    ImageProcessor.applyBrightnessContrast (fun _ => 1) 5 30 [⟨10, 20, 30, 40⟩] =
      [⟨10, 20, 30, 40⟩].map (bcSpecPixel (fun _ => 1) 5 30) :=
  applyBrightnessContrast_spec (fun _ => 1) 5 30 [⟨10, 20, 30, 40⟩]
    ⟨by norm_num, by norm_num⟩ ⟨by norm_num, by norm_num⟩

/-! ### Edge-enhancement border policy and interior formula -/

/-- C5: for positive strength, `applyEdgeEnhancement` leaves every border
    pixel (column 0, the last column, row 0, the last row) byte-identical
    to its input; it sets each interior pixel's RGB channels to the
    clamped `original + laplacianSum * (strength * 0.1)` read from the
    pre-enhancement buffer, keeping alpha; and when the image is at most
    two pixels wide or tall the whole buffer passes through unchanged. -/
theorem applyEdgeEnhancement_spec (img : ImgData) (s : ℚ)
    (_hs : 0 < s ∧ s ≤ 10) :
    (∀ i, i < img.data.length →
      ((i % img.width = 0 ∨ i % img.width = img.width - 1 ∨
        i / img.width = 0 ∨ i / img.width = img.height - 1) →
        px (ImageProcessor.applyEdgeEnhancement img s).data i = px img.data i) ∧
      (1 ≤ i % img.width ∧ i % img.width < img.width - 1 ∧
       1 ≤ i / img.width ∧ i / img.width < img.height - 1 →
        px (ImageProcessor.applyEdgeEnhancement img s).data i =
          { r := ImageProcessor.edgeChannel img.data img.width
                   (i % img.width) (i / img.width) 0 (s * (1 / 10))
            g := ImageProcessor.edgeChannel img.data img.width
                   (i % img.width) (i / img.width) 1 (s * (1 / 10))
            b := ImageProcessor.edgeChannel img.data img.width
                   (i % img.width) (i / img.width) 2 (s * (1 / 10))
            a := (px img.data i).a })) ∧
    ((img.width ≤ 2 ∨ img.height ≤ 2) →
      (ImageProcessor.applyEdgeEnhancement img s).data = img.data) := by
  have hdata : (ImageProcessor.applyEdgeEnhancement img s).data =
      (List.range img.data.length).map (fun i =>
        if 1 ≤ i % img.width ∧ i % img.width < img.width - 1 ∧
           1 ≤ i / img.width ∧ i / img.width < img.height - 1 then
          { r := ImageProcessor.edgeChannel img.data img.width
                   (i % img.width) (i / img.width) 0 (s * (1 / 10))
            g := ImageProcessor.edgeChannel img.data img.width
                   (i % img.width) (i / img.width) 1 (s * (1 / 10))
            b := ImageProcessor.edgeChannel img.data img.width
                   (i % img.width) (i / img.width) 2 (s * (1 / 10))
            a := (px img.data i).a }
        else px img.data i) := rfl
  refine ⟨fun i hi => ⟨fun hb => ?_, fun hint => ?_⟩, fun hsmall => ?_⟩
  · rw [hdata, px_range_map _ _ _ hi]
    have hcond : ¬(1 ≤ i % img.width ∧ i % img.width < img.width - 1 ∧
        1 ≤ i / img.width ∧ i / img.width < img.height - 1) := by
      rcases hb with h | h | h | h <;> omega
    simp only [if_neg hcond]
  · rw [hdata, px_range_map _ _ _ hi]
    simp only [if_pos hint]
  · rw [hdata]
    have hcongr : ∀ i ∈ List.range img.data.length,
        (if 1 ≤ i % img.width ∧ i % img.width < img.width - 1 ∧
            1 ≤ i / img.width ∧ i / img.width < img.height - 1 then
          ({ r := ImageProcessor.edgeChannel img.data img.width
                    (i % img.width) (i / img.width) 0 (s * (1 / 10))
             g := ImageProcessor.edgeChannel img.data img.width
                    (i % img.width) (i / img.width) 1 (s * (1 / 10))
             b := ImageProcessor.edgeChannel img.data img.width
                    (i % img.width) (i / img.width) 2 (s * (1 / 10))
             a := (px img.data i).a } : Px)
        else px img.data i) = px img.data i := by
      intro i _
      have hcond : ¬(1 ≤ i % img.width ∧ i % img.width < img.width - 1 ∧
          1 ≤ i / img.width ∧ i / img.width < img.height - 1) := by
        rcases hsmall with h | h <;> omega
      simp only [if_neg hcond]
    rw [List.map_congr_left hcongr, range_map_px]

/-- Witness for C5: a concrete 3×3 buffer with strength 5. -/
theorem applyEdgeEnhancement_spec_witness :
    px (ImageProcessor.applyEdgeEnhancement
          ⟨3, 3, [⟨0, 0, 0, 9⟩, ⟨10, 10, 10, 9⟩, ⟨20, 20, 20, 9⟩,
                  ⟨30, 30, 30, 9⟩, ⟨40, 40, 40, 9⟩, ⟨50, 50, 50, 9⟩,
                  ⟨60, 60, 60, 9⟩, ⟨70, 70, 70, 9⟩, ⟨80, 80, 80, 9⟩]⟩ 5).data 0 =
      px [⟨0, 0, 0, 9⟩, ⟨10, 10, 10, 9⟩, ⟨20, 20, 20, 9⟩,
          ⟨30, 30, 30, 9⟩, ⟨40, 40, 40, 9⟩, ⟨50, 50, 50, 9⟩,
          ⟨60, 60, 60, 9⟩, ⟨70, 70, 70, 9⟩, ⟨80, 80, 80, 9⟩] 0 :=
  ((applyEdgeEnhancement_spec
      ⟨3, 3, [⟨0, 0, 0, 9⟩, ⟨10, 10, 10, 9⟩, ⟨20, 20, 20, 9⟩,
              ⟨30, 30, 30, 9⟩, ⟨40, 40, 40, 9⟩, ⟨50, 50, 50, 9⟩,
              ⟨60, 60, 60, 9⟩, ⟨70, 70, 70, 9⟩, ⟨80, 80, 80, 9⟩]⟩ 5
      ⟨by norm_num, by norm_num⟩).1 0 (by decide)).1 (by decide)

/-! ### Histogram conservation -/

/-- Total count held by one histogram channel. -/
def histSum (f : Fin 256 → ℕ) : ℕ := ∑ j, f j

theorem histSum_bump (f : Fin 256 → ℕ) {i : ℕ} (h : i < 256) :
    histSum (ImageProcessor.bump f i) = histSum f + 1 := by
  unfold histSum ImageProcessor.bump
  have hsplit : ∀ j : Fin 256,
      (if (j : ℕ) = i then f j + 1 else f j) =
        f j + (if j = (⟨i, h⟩ : Fin 256) then 1 else 0) := by
    intro j
    by_cases hj : (j : ℕ) = i
    · rw [if_pos hj, if_pos (Fin.ext hj)]
    · rw [if_neg hj, if_neg (fun he => hj (by rw [he])), Nat.add_zero]
  rw [Finset.sum_congr rfl fun j _ => hsplit j, Finset.sum_add_distrib,
    Finset.sum_ite_eq' Finset.univ (⟨i, h⟩ : Fin 256) fun _ => 1,
    if_pos (Finset.mem_univ _)]

theorem lumQ_nonneg (p : Px) : 0 ≤ lumQ p := by
  unfold lumQ; positivity

theorem lumQ_le (p : Px) (hr : p.r ≤ 255) (hg : p.g ≤ 255) (hb : p.b ≤ 255) :
    lumQ p ≤ 255 := by
  unfold lumQ
  have hr' : (p.r : ℚ) ≤ 255 := by exact_mod_cast hr
  have hg' : (p.g : ℚ) ≤ 255 := by exact_mod_cast hg
  have hb' : (p.b : ℚ) ≤ 255 := by exact_mod_cast hb
  linarith

theorem round_lumQ_nonneg (p : Px) : 0 ≤ round (lumQ p) := by
  rw [round_eq]
  exact Int.floor_nonneg.2 (by linarith [lumQ_nonneg p])

theorem round_lumQ_le (p : Px) (hr : p.r ≤ 255) (hg : p.g ≤ 255)
    (hb : p.b ≤ 255) : round (lumQ p) ≤ 255 := by
  rw [round_eq]
  have hlt : lumQ p + 1 / 2 < (256 : ℤ) := by
    push_cast
    linarith [lumQ_le p hr hg hb]
  have := Int.floor_lt.2 hlt
  omega

theorem lumIndex_lt (p : Px) (hr : p.r ≤ 255) (hg : p.g ≤ 255)
    (hb : p.b ≤ 255) : ImageProcessor.lumIndex p < 256 := by
  unfold ImageProcessor.lumIndex
  have := round_lumQ_le p hr hg hb
  omega

theorem calcHist_go (data : List Px) : ∀ acc : ImageProcessor.Histogram,
    (∀ p ∈ data, p.r ≤ 255 ∧ p.g ≤ 255 ∧ p.b ≤ 255) →
    histSum (List.foldl ImageProcessor.histStep acc data).red =
        histSum acc.red + data.length ∧
    histSum (List.foldl ImageProcessor.histStep acc data).green =
        histSum acc.green + data.length ∧
    histSum (List.foldl ImageProcessor.histStep acc data).blue =
        histSum acc.blue + data.length ∧
    histSum (List.foldl ImageProcessor.histStep acc data).luminance =
        histSum acc.luminance + data.length := by
  induction data with
  | nil => intro acc _; simp
  | cons p rest ih =>
    intro acc hwf
    obtain ⟨hr, hg, hb⟩ := hwf p (List.mem_cons_self _ _)
    have hrest := ih (ImageProcessor.histStep acc p)
      fun q hq => hwf q (List.mem_cons_of_mem _ hq)
    simp only [List.foldl_cons, List.length_cons]
    refine ⟨?_, ?_, ?_, ?_⟩
    · rw [hrest.1]
      show histSum (ImageProcessor.bump acc.red p.r) + rest.length = _
      rw [histSum_bump acc.red (by omega : p.r < 256)]
      omega
    · rw [hrest.2.1]
      show histSum (ImageProcessor.bump acc.green p.g) + rest.length = _
      rw [histSum_bump acc.green (by omega : p.g < 256)]
      omega
    · rw [hrest.2.2.1]
      show histSum (ImageProcessor.bump acc.blue p.b) + rest.length = _
      rw [histSum_bump acc.blue (by omega : p.b < 256)]
      omega
    · rw [hrest.2.2.2]
      show histSum (ImageProcessor.bump acc.luminance (ImageProcessor.lumIndex p))
            + rest.length = _
      rw [histSum_bump acc.luminance (lumIndex_lt p hr hg hb)]
      omega

/-- C6: on a well-formed buffer, each of the four 256-bucket histogram
    channels counts every pixel exactly once (each channel's counts sum
    to `width * height`), and the luminance bucket index equals the
    rounded luminance clamped to [0, 255] — the clamp being a no-op
    because the rounded luminance of 8-bit channels already lies there.
    `calculateHistogram` is a pure function of the pixel list. -/
theorem calculateHistogram_spec (img : ImgData)
    (hdim : img.data.length = img.width * img.height)
    (hwf : wfData img.data) :
    histSum (ImageProcessor.calculateHistogram img.data).red =
        img.width * img.height ∧
    histSum (ImageProcessor.calculateHistogram img.data).green =
        img.width * img.height ∧
    histSum (ImageProcessor.calculateHistogram img.data).blue =
        img.width * img.height ∧
    histSum (ImageProcessor.calculateHistogram img.data).luminance =
        img.width * img.height ∧
    ∀ p ∈ img.data,
      ImageProcessor.lumIndex p = (max 0 (min 255 (round (lumQ p)))).toNat := by
  have hchan : ∀ p ∈ img.data, p.r ≤ 255 ∧ p.g ≤ 255 ∧ p.b ≤ 255 := by
    intro p hp
    obtain ⟨h1, h2, h3, _⟩ := hwf p hp
    exact ⟨h1, h2, h3⟩
  have hgo := calcHist_go img.data
    ⟨fun _ => 0, fun _ => 0, fun _ => 0, fun _ => 0⟩ hchan
  have hzero : histSum (fun _ : Fin 256 => 0) = 0 := by
    simp [histSum]
  unfold ImageProcessor.calculateHistogram
  refine ⟨?_, ?_, ?_, ?_, ?_⟩
  · rw [hgo.1]; simp only [hzero]; omega
  · rw [hgo.2.1]; simp only [hzero]; omega
  · rw [hgo.2.2.1]; simp only [hzero]; omega
  · rw [hgo.2.2.2]; simp only [hzero]; omega
  · intro p hp
    obtain ⟨hr, hg, hb⟩ := hchan p hp
    unfold ImageProcessor.lumIndex
    rw [min_eq_right (round_lumQ_le p hr hg hb),
      max_eq_right (round_lumQ_nonneg p)]

/-- Witness for C6 on a concrete 2×2 buffer. -/
theorem calculateHistogram_spec_witness :
    histSum (ImageProcessor.calculateHistogram
        [⟨1, 2, 3, 4⟩, ⟨255, 255, 255, 0⟩, ⟨0, 0, 0, 0⟩, ⟨7, 7, 7, 7⟩]).luminance
      = 2 * 2 :=
  (calculateHistogram_spec
      ⟨2, 2, [⟨1, 2, 3, 4⟩, ⟨255, 255, 255, 0⟩, ⟨0, 0, 0, 0⟩, ⟨7, 7, 7, 7⟩]⟩
      (by decide) (by decide)).2.2.2.1

/-! ### Monotonicity of the gray-level mapping -/

theorem curveRaw_mono (e : ℚ → ℚ) (he : Monotone e) (hpos : ∀ x, 0 < e x)
    (b c : ℚ) (hcl : -100 ≤ c) (x y : ℕ) (hxy : x ≤ y) :
    curveRaw e b c x ≤ curveRaw e b c y := by
  have hxy' : (x : ℚ) ≤ (y : ℚ) := by exact_mod_cast hxy
  unfold curveRaw
  rcases lt_or_ge 50 c with h50 | h50
  · rw [if_pos h50, if_pos h50]
    dsimp only
    rcases le_or_lt 95 c with h95 | h95
    · rw [if_pos h95, if_pos h95]
      split_ifs with h1 h2
      · exact le_rfl
      · exact absurd (lt_of_lt_of_le h1 (by linarith)) h2
      · norm_num
      · exact le_rfl
    · rw [if_neg (not_le.2 h95), if_neg (not_le.2 h95)]
      have hk : (0 : ℚ) < max 1 (100 - c) / 10 :=
        div_pos (lt_of_lt_of_le one_pos (le_max_left _ _)) (by norm_num)
      have hdiv : ((x : ℚ) + b - (128 - (c - 50) * (236 / 100))) /
            (max 1 (100 - c) / 10) ≤
          ((y : ℚ) + b - (128 - (c - 50) * (236 / 100))) /
            (max 1 (100 - c) / 10) :=
        (div_le_div_iff_of_pos_right hk).2 (by linarith)
      have hexp := he (neg_le_neg hdiv)
      have hd : (0 : ℚ) <
          1 + e (-(((y : ℚ) + b - (128 - (c - 50) * (236 / 100))) /
            (max 1 (100 - c) / 10))) := by
        linarith [hpos (-(((y : ℚ) + b - (128 - (c - 50) * (236 / 100))) /
          (max 1 (100 - c) / 10)))]
      gcongr
  · rw [if_neg (not_lt.2 h50), if_neg (not_lt.2 h50)]
    dsimp only
    have hf : 0 ≤ (if c ≤ 0 then (c + 100) / 100 else 1 + (c / 50) * 3) := by
      split_ifs with hc0
      · exact div_nonneg (by linarith) (by norm_num)
      · have : (0 : ℚ) ≤ c / 50 := div_nonneg (by linarith) (by norm_num)
        linarith
    have := mul_le_mul_of_nonneg_right (sub_le_sub_right hxy' 128) hf
    linarith

/-- C10: with `invert = false` and in-domain parameters, the transfer
    curve (the gray-level mapping the processor applies pointwise) is
    monotone non-decreasing in the input gray level, for any monotone,
    positive model of `Math.exp`. -/
theorem curveOutput_monotone (e : ℚ → ℚ) (he : Monotone e)
    (hpos : ∀ x, 0 < e x) (b c : ℚ)
    (_hb : -100 ≤ b ∧ b ≤ 100) (hc : -100 ≤ c ∧ c ≤ 100)
    (x y : ℕ) (hxy : x ≤ y) :
    curveOutput e b c false x ≤ curveOutput e b c false y := by
  show clamp255 (curveRaw e b c x) ≤ clamp255 (curveRaw e b c y)
  exact clamp255_mono (curveRaw_mono e he hpos b c hc.1 x y hxy)

/-- Witness for C10 with a concrete monotone positive exponential model,
    in the sigmoid regime. -/
theorem curveOutput_monotone_witness :
    curveOutput (fun _ => 1) 0 60 false 3 ≤ curveOutput (fun _ => 1) 0 60 false 5 :=
  curveOutput_monotone (fun _ => 1) monotone_const (fun _ => one_pos) 0 60
    ⟨by norm_num, by norm_num⟩ ⟨by norm_num, by norm_num⟩ 3 5 (by norm_num)

/-! ### Curve / pixel-pipeline equivalence on flat-gray pixels -/

theorem lumQ_gray (g a : ℕ) : lumQ ⟨g, g, g, a⟩ = (g : ℚ) := by
  unfold lumQ
  dsimp only
  ring

theorem storeByte_natCast (g : ℕ) (hg : g ≤ 255) : storeByte (g : ℚ) = g := by
  unfold storeByte clamp255
  rw [min_eq_right (by exact_mod_cast hg : (g : ℚ) ≤ 255),
    max_eq_right (Nat.cast_nonneg g)]
  unfold roundTiesEven
  dsimp only
  rw [Int.floor_natCast]
  rw [if_pos (by push_cast; norm_num : (g : ℚ) - ((g : ℤ) : ℚ) < 1 / 2)]
  exact Int.toNat_natCast g

theorem curveRaw_zero (e : ℚ → ℚ) (g : ℕ) : curveRaw e 0 0 g = (g : ℚ) := by
  unfold curveRaw
  rw [if_neg (by norm_num : ¬(50 : ℚ) < 0)]
  dsimp only
  rw [if_pos (le_refl (0 : ℚ))]
  ring

theorem bcPixelExtreme_gray_r (e : ℚ → ℚ) (b c : ℚ) (g a : ℕ)
    (h50 : 50 < c) :
    (ImageProcessor.bcPixelExtreme e b c ⟨g, g, g, a⟩).r =
      storeByte (curveRaw e b c g) := by
  unfold ImageProcessor.bcPixelExtreme curveRaw
  rw [if_pos h50]
  dsimp only
  rw [lumQ_gray]

theorem bcChannel_curveRaw (e : ℚ → ℚ) (b c : ℚ) (g : ℕ) (h50 : c ≤ 50) :
    ImageProcessor.bcChannel b c g = storeByte (curveRaw e b c g) := by
  unfold ImageProcessor.bcChannel curveRaw
  rw [if_neg (not_lt.2 h50)]
  dsimp only
  exact storeByte_clamp _

theorem store_close_plain (u : ℚ) :
    |clamp255 u - ((storeByte u : ℕ) : ℚ)| ≤ 1 / 2 := by
  rw [abs_sub_comm]
  exact storeByte_close u

theorem store_close_inverted (u : ℚ) :
    |255 - clamp255 u - ((255 - storeByte u : ℕ) : ℚ)| ≤ 1 / 2 := by
  have h2 := storeByte_le u
  have hcast : ((255 - storeByte u : ℕ) : ℚ) = 255 - (storeByte u : ℚ) := by
    push_cast [h2]
    ring
  rw [hcast, show (255 : ℚ) - clamp255 u - (255 - (storeByte u : ℚ)) =
    ((storeByte u : ℕ) : ℚ) - clamp255 u from by ring]
  exact storeByte_close u

/-- C1: for in-domain brightness/contrast, either inversion setting and
    any gray level `g ≤ 255`, the transfer-curve output that
    `drawHistogram` computes for input `g` is within 1/2 (the 8-bit
    store's rounding tolerance) of the R channel `process` produces for a
    single flat-gray pixel `(g, g, g, a)` with `edgeEnhancement = 0`. -/
theorem curve_process_equiv (e : ℚ → ℚ) (b c : ℚ) (inv : Bool) (g a : ℕ)
    (_hb : -100 ≤ b ∧ b ≤ 100) (_hc : -100 ≤ c ∧ c ≤ 100) (hg : g ≤ 255) :
    |curveOutput e b c inv g -
      ((px (ImageProcessor.process e ⟨1, 1, [⟨g, g, g, a⟩]⟩
          ⟨b, c, 0, inv⟩).data 0).r : ℚ)| ≤ 1 / 2 := by
  have hbyte : (px (if b ≠ 0 ∨ c ≠ 0 then
        ImageProcessor.applyBrightnessContrast e b c [⟨g, g, g, a⟩]
      else [⟨g, g, g, a⟩]) 0).r = storeByte (curveRaw e b c g) := by
    by_cases hcond : b ≠ 0 ∨ c ≠ 0
    · rw [if_pos hcond]
      unfold ImageProcessor.applyBrightnessContrast
      rcases lt_or_ge 50 c with h50 | h50
      · rw [if_pos h50]
        show (ImageProcessor.bcPixelExtreme e b c ⟨g, g, g, a⟩).r = _
        exact bcPixelExtreme_gray_r e b c g a h50
      · rw [if_neg (not_lt.2 h50)]
        show ImageProcessor.bcChannel b c g = _
        exact bcChannel_curveRaw e b c g h50
    · rw [if_neg hcond]
      push_neg at hcond
      obtain ⟨hb0, hc0⟩ := hcond
      subst hb0
      subst hc0
      show g = storeByte (curveRaw e 0 0 g)
      rw [curveRaw_zero, storeByte_natCast g hg]
  cases inv
  · have h1 : curveOutput e b c false g = clamp255 (curveRaw e b c g) := rfl
    have h2 : (ImageProcessor.process e ⟨1, 1, [⟨g, g, g, a⟩]⟩
          ⟨b, c, 0, false⟩).data =
        (if b ≠ 0 ∨ c ≠ 0 then
            ImageProcessor.applyBrightnessContrast e b c [⟨g, g, g, a⟩]
          else [⟨g, g, g, a⟩]) := rfl
    rw [h1, h2, hbyte]
    exact store_close_plain _
  · have h1 : curveOutput e b c true g =
        255 - clamp255 (curveRaw e b c g) := rfl
    have h2 : (ImageProcessor.process e ⟨1, 1, [⟨g, g, g, a⟩]⟩
          ⟨b, c, 0, true⟩).data =
        ImageProcessor.applyInversion
          (if b ≠ 0 ∨ c ≠ 0 then
              ImageProcessor.applyBrightnessContrast e b c [⟨g, g, g, a⟩]
            else [⟨g, g, g, a⟩]) := rfl
    rw [h1, h2]
    set d1 := (if b ≠ 0 ∨ c ≠ 0 then
        ImageProcessor.applyBrightnessContrast e b c [⟨g, g, g, a⟩]
      else [⟨g, g, g, a⟩]) with hd1
    have hlen : 0 < d1.length := by
      rw [hd1]
      split
      · rw [length_applyBrightnessContrast]
        norm_num
      · norm_num
    have h3 : px (ImageProcessor.applyInversion d1) 0 =
        ImageProcessor.invPixel (px d1 0) :=
      px_map_lt ImageProcessor.invPixel d1 0 hlen
    rw [h3]
    have h4 : (ImageProcessor.invPixel (px d1 0)).r = 255 - (px d1 0).r := rfl
    rw [h4, hbyte]
    exact store_close_inverted _

/-- Witness for C1 in the sigmoid regime with inversion: contrast 60
    lands exactly on a rounding tie, realizing the full 1/2 tolerance. -/
theorem curve_process_equiv_witness :
    |curveOutput (fun _ => 1) 10 60 true 100 -
      ((px (ImageProcessor.process (fun _ => 1) ⟨1, 1, [⟨100, 100, 100, 7⟩]⟩
          ⟨10, 60, 0, true⟩).data 0).r : ℚ)| ≤ 1 / 2 :=
  curve_process_equiv (fun _ => 1) 10 60 true 100 7
    ⟨by norm_num, by norm_num⟩ ⟨by norm_num, by norm_num⟩ (by norm_num)

end RadiographViewer
